import Mathlib

/-!
Verification of the MoClo genome-tiling design suite of this repository
(`experiments/EXP_001/moclo-viewer`, `-v2`, `-v3` and the analysis reports).

Nucleotide sequences are embedded as `List Char` and genome coordinates as
`Nat`.  Functions are translated from the TypeScript viewer sources; the
analysis-pipeline stages whose scripts (`primer_design.py`, `pipeline_v2.py`)
are referenced by the reports but are not part of the source tree are
modelled from the specification, each such definition marked
`Modelled from the spec:` in its doc comment.
-/

/-! ## Sequence utilities -/

/-- Embeds `s.toUpperCase()` applied to a nucleotide string. -/
def toUpperSeq (s : List Char) : List Char := s.map Char.toUpper

/-- Embeds `s.substring(i, i + n)` / `s.slice(i, i + n)`: the characters of
`s` at indices `[i, i + n)`. -/
def substrN (s : List Char) (i n : Nat) : List Char := (s.drop i).take n

/-- Watson-Crick complement of one nucleotide character. -/
def ntComplement (c : Char) : Char :=
  if c = 'A' then 'T'
  else if c = 'T' then 'A'
  else if c = 'G' then 'C'
  else if c = 'C' then 'G'
  else c

/-- Reverse complement of a nucleotide sequence. -/
def revComp (s : List Char) : List Char := (s.map ntComplement).reverse

/-- The BsaI recognition sequence `GGTCTC` (the constant `fwd` of
`findBsaISites` in `moclo-viewer-v2/src/components/AlignmentCanvas.tsx`). -/
def bsaiFwd : List Char := ['G', 'G', 'T', 'C', 'T', 'C']

/-- The reverse complement `GAGACC` of the BsaI recognition sequence (the
constant `rev` of `findBsaISites`). -/
def bsaiRev : List Char := ['G', 'A', 'G', 'A', 'C', 'C']

/-- Embeds `findBsaISites(seq, offset)` from
`moclo-viewer-v2/src/components/AlignmentCanvas.tsx` (the same scan is inlined
as `bsaISites` in `moclo-viewer-v3/src/components/GroupDetail.tsx`): scan the
uppercased sequence with a 6-character window, `i` ranging over
`0 ≤ i ≤ length − 6`, and report `offset + i` whenever the window reads
`GGTCTC` or `GAGACC`. -/
def findBsaISites (seq : List Char) (offset : Nat) : List Nat :=
  (List.range (seq.length - 5)).filterMap (fun i =>
    if substrN (toUpperSeq seq) i 6 = bsaiFwd ∨ substrN (toUpperSeq seq) i 6 = bsaiRev then
      some (offset + i)
    else none)

/-! ## Standardized overhang catalog (V2 design) -/

/-- The 16-entry standardized fusion-site set of the V2 design report
(`Standardized Fusion Site Set` table; also displayed from
`bundle.design.standard_overhangs` in
`moclo-viewer-v3/src/components/GenomeOverview.tsx`). -/
def standardOverhangs : List (List Char) :=
  [['A', 'A', 'T', 'A'], ['A', 'A', 'C', 'T'], ['A', 'A', 'G', 'C'], ['A', 'T', 'A', 'A'],
   ['A', 'T', 'T', 'C'], ['A', 'T', 'G', 'T'], ['A', 'C', 'A', 'C'], ['A', 'C', 'T', 'T'],
   ['A', 'G', 'A', 'T'], ['A', 'G', 'C', 'A'], ['T', 'A', 'A', 'T'], ['T', 'A', 'T', 'C'],
   ['T', 'A', 'C', 'A'], ['T', 'T', 'A', 'C'], ['T', 'T', 'C', 'T'], ['T', 'G', 'A', 'A']]

/-- Hamming distance between two equal-length sequences: the number of
positions at which they differ. -/
def hammingDistance (a b : List Char) : Nat :=
  (a.zip b).countP (fun p => p.1 != p.2)

/-- Whether a sequence contains a run of three or more identical consecutive
characters. -/
def hasRun3 : List Char → Bool
  | a :: b :: c :: rest => (a == b && b == c) || hasRun3 (b :: c :: rest)
  | _ => false

/-! ## PCR/Restriction Simulator classification and its viewer rendering -/

/-- The per-tile simulation fields of the data bundle (`Tile` in
`moclo-viewer-v3/src/types.ts`, restricted to the two fields the
classification claims are about). -/
structure SimTile where
  internal_bsai : Nat
  gg_ready : Bool
deriving DecidableEq

/-- Modelled from the spec: the PCR/Restriction Simulator classification
(§4.5; the simulation script is not under `src/`): given the internal
recognition sites remaining in a tile's amplicon, the tile is `ready` iff no
site remains, otherwise blocked carrying the site count. -/
def classifyTile (internalSites : List Nat) : SimTile :=
  { internal_bsai := internalSites.length, gg_ready := internalSites.isEmpty }

/-- Colour constant `GREEN` of the viewer components. -/
def GREEN : String := "#3fb950"

/-- Colour constant `YELLOW` of the viewer components. -/
def YELLOW : String := "#d29922"

/-- Colour constant `ORANGE` of the viewer components. -/
def ORANGE : String := "#db6d28"

/-- Colour constant `RED` of the viewer components. -/
def RED : String := "#f85149"

/-- Embeds `tileColor(tile)` from the Lvl1 assembly view and genome canvas
components: green iff `gg_ready`, else yellow/orange/red by internal site
count. -/
def tileColor (t : SimTile) : String :=
  if t.gg_ready then GREEN
  else if t.internal_bsai = 1 then YELLOW
  else if t.internal_bsai = 2 then ORANGE
  else RED

/-- Embeds `statusLabel(tile)` from the Lvl1 assembly view. -/
def statusLabel (t : SimTile) : String :=
  if t.gg_ready then "Ready"
  else toString t.internal_bsai ++ " BsaI site" ++ (if 1 < t.internal_bsai then "s" else "")

/-! ## Tile primers (enzyme site + spacer + overhang + binding region) -/

/-- The 7-character BsaI adapter `CGTCTCN` (enzyme site plus 1-nt spacer)
that `PrimerBlock` highlights at the start of each primer. -/
def bsaiAdapter : List Char := ['C', 'G', 'T', 'C', 'T', 'C', 'N']

/-- Modelled from the spec: primer construction in the Primer Designer
(§4.4; `primer_design.py` is not under `src/`): the full primer is
`enzyme_site + spacer + overhang + binding_region` with enzyme site `CGTCTC`,
1-nt spacer `N`, the 4-nt junction overhang (the tile's left overhang for the
forward primer, its right overhang for the reverse primer) and the genomic
binding region. -/
def mkTilePrimer (overhang binding : List Char) : List Char :=
  ['C', 'G', 'T', 'C', 'T', 'C'] ++ ['N'] ++ overhang ++ binding

/-- Embeds `seq.toUpperCase().startsWith('CGTCTCN')` from `PrimerBlock`. -/
def hasBsaI (seq : List Char) : Bool := (toUpperSeq seq).take 7 == bsaiAdapter

/-- Embeds the three colour-coded spans `PrimerBlock` renders when the
adapter is present: the literal adapter, `seq.slice(7, 11)` (the overhang)
and `seq.slice(11)` (the binding region). -/
def primerSegments (seq : List Char) : List Char × List Char × List Char :=
  (bsaiAdapter, substrN seq 7 4, seq.drop 11)

/-! ## Domestication Planner -/

/-- A mutation record (`Mutation` in `moclo-viewer-v3/src/types.ts`). -/
structure Mutation where
  position : Nat
  original : Char
  mutant : Char
  codon_change : String
  amino_acid : String
  gene : String
deriving DecidableEq

/-- A mutagenic primer pair (`DomesticationPrimer` in
`moclo-viewer-v3/src/types.ts`, restricted to the site fields). -/
structure DomesticationPrimer where
  site_pos : Nat
  original_nt : Char
  mutant_nt : Char
deriving DecidableEq

/-- An OE-PCR sub-fragment (`SubFragment` in `moclo-viewer-v3/src/types.ts`;
the source fields `start`/`end` are embedded as `fragStart`/`fragEnd`). -/
structure SubFragment where
  index : Nat
  fragStart : Nat
  fragEnd : Nat
deriving DecidableEq

/-- The per-tile domestication record (`DomesticationInfo` in
`moclo-viewer-v3/src/types.ts`). -/
structure DomesticationInfo where
  n_sites : Nat
  primers : List DomesticationPrimer
  subfragments : List SubFragment
deriving DecidableEq

/-- Output of the Domestication Planner for one blocked tile: the bundle
record plus the Mutation list. -/
structure DomesticationPlan where
  info : DomesticationInfo
  mutations : List Mutation
deriving DecidableEq

/-- Modelled from the spec: the Domestication Planner (§4.6; the planner
lives in `primer_design.py` / `pipeline_v2.py`, which are not under `src/`).
For a blocked tile `[tileStart, tileEnd)` with internal-site mutation points
`sites` sorted by position, and `mutFor` the per-site synonymous-substitution
search: record one Mutation and one mutagenic primer pair per site, and cut
the tile at every mutation point, so that fragment 0 spans tile start → first
point, fragment `i` spans point `i − 1` → point `i`, and fragment `N` spans
point `N − 1` → tile end. -/
def planDomestication (tileStart tileEnd : Nat) (sites : List Nat)
    (mutFor : Nat → Mutation) : DomesticationPlan :=
  let boundaries := tileStart :: (sites ++ [tileEnd])
  { info :=
      { n_sites := sites.length
        primers := sites.map (fun p =>
          { site_pos := p, original_nt := (mutFor p).original, mutant_nt := (mutFor p).mutant })
        subfragments := (boundaries.zip boundaries.tail).enum.map
          (fun ie => { index := ie.1, fragStart := ie.2.1, fragEnd := ie.2.2 }) }
    mutations := sites.map mutFor }

/-- PCR reactions required for one blocked tile in Workflow B of
`Slide4_PCRPlan.tsx`: one reaction per sub-fragment plus one final
overlap-assembly reaction. -/
def pcrReactionsForBlockedTile (d : DomesticationInfo) : Nat := d.subfragments.length + 1

/-- Mutagenic oligo count for one tile as computed in
`Slide2_Domestication.tsx` / `Slide4_PCRPlan.tsx`:
`tile.domestication.primers.length * 2`. -/
def mutagenicOligos (d : DomesticationInfo) : Nat := d.primers.length * 2

/-! ## V2 positional overhang assignment -/

/-- Tiles per Lvl1 group in the V2 design (`design.tiles_per_group`). -/
def tilesPerGroupV2 : Nat := 15

/-- Modelled from the spec: positional overhang assignment of the V2 design
(`pipeline_v2.py`, not under `src/`): a tile at position `pos` of any Lvl1
group takes the catalog entry at index `pos` as its left overhang. -/
def v2OverhangLeft (catalog : List (List Char)) (pos : Nat) : List Char :=
  catalog.getD pos []

/-- Modelled from the spec: the right overhang of a tile at position `pos` is
the catalog entry at index `pos + 1`. -/
def v2OverhangRight (catalog : List (List Char)) (pos : Nat) : List Char :=
  catalog.getD (pos + 1) []

/-- Position of tile `idx` within its Lvl1 group in the V2 design (groups
are consecutive runs of `tilesPerGroupV2` tiles in genome order). -/
def tilePositionOf (idx : Nat) : Nat := idx % tilesPerGroupV2

/-- Lvl1 group of tile `idx` in the V2 design. -/
def tileGroupOf (idx : Nat) : Nat := idx / tilesPerGroupV2

/-- Flanking overhangs of tile `idx` under the V2 positional assignment. -/
def v2TileOverhangs (idx : Nat) : List Char × List Char :=
  (v2OverhangLeft standardOverhangs (tilePositionOf idx),
   v2OverhangRight standardOverhangs (tilePositionOf idx))

/-- Embeds the assembly diagram of
`moclo-viewer-v3/src/components/slides/Slide5_BuildingLvl1.tsx`: slot `i`
shows `design.standard_overhangs[i]` and `design.standard_overhangs[i + 1]`
flanking tile `T i`. -/
def slide5AssemblySlots : List (List Char × List Char) :=
  (List.range tilesPerGroupV2).map
    (fun i => (standardOverhangs.getD i [], standardOverhangs.getD (i + 1) []))

/-! ## Primer Tm optimisation -/

/-- Deviation of an achieved melting temperature from the target. -/
def tmDev (target tm : ℚ) : ℚ := |tm - target|

/-- Of two (binding-length, Tm) candidates, the one whose Tm deviates less
from the target; ties keep the incumbent (shorter lengths are tried first,
so the first minimiser wins). -/
def pickBetter (target : ℚ) (best cand : Nat × ℚ) : Nat × ℚ :=
  if tmDev target cand.2 < tmDev target best.2 then cand else best

/-- Modelled from the spec: the candidate scan of the Primer Designer's Tm
optimisation (§4.4; `primer_design.py` is not under `src/`): among the
candidate binding-region lengths with their Tm values, keep the one
minimising the deviation from the target Tm. -/
def pickBestTm (target : ℚ) : List (Nat × ℚ) → Option (Nat × ℚ)
  | [] => none
  | c :: cs => some (cs.foldl (pickBetter target) c)

/-- A designed primer's Tm fields: chosen binding-region length, achieved Tm
and the `TmUnreachable` review flag. -/
structure TmPrimer where
  bindingLen : Nat
  achievedTm : ℚ
  tmUnreachable : Bool
deriving DecidableEq

/-- Modelled from the spec: Tm selection with the `TmUnreachable` flag (§4.4
and §7 of the spec): the primer is always produced from the
closest-deviation candidate, and is flagged `TmUnreachable` (never rejected)
exactly when even that deviation exceeds the tolerance. -/
def designPrimerTm (target tol : ℚ) (cands : List (Nat × ℚ)) : Option TmPrimer :=
  match pickBestTm target cands with
  | none => none
  | some best =>
    some { bindingLen := best.1, achievedTm := best.2,
           tmUnreachable := decide (tol < tmDev target best.2) }

/-! ## Loader-derived data (determinism) -/

/-- A raw mutation entry of `mutations.json` (`RawMutations` in
`moclo-viewer-v3/src/loader.ts`). -/
structure RawMut where
  o : Char
  m : Char
  c : String
  a : String
  g : String
deriving DecidableEq

/-- Embeds the mutation-map construction of `loadAllData` in
`moclo-viewer-v3/src/loader.ts`: each raw entry `(pos, {o, m, c, a, g})`
becomes a `Mutation` record. -/
def buildMutations (raw : List (Nat × RawMut)) : List Mutation :=
  raw.map (fun pm =>
    { position := pm.1, original := pm.2.o, mutant := pm.2.m,
      codon_change := pm.2.c, amino_acid := pm.2.a, gene := pm.2.g })

/-- A tile row of the data bundle, restricted to the fields the per-group
indexing uses (`Tile` in `moclo-viewer-v3/src/types.ts`; the source fields
`start`/`end` are embedded as `tstart`/`tend`). -/
structure VTile where
  id : Nat
  tstart : Nat
  tend : Nat
  lvl1_group : Nat
  position : Nat
  gg_ready : Bool
deriving DecidableEq

/-- Stable insertion of `x` into a list sorted by `key`: `x` goes after all
elements with key `≤ key x`. -/
def insertByKey {α : Type} (key : α → Nat) (x : α) : List α → List α
  | [] => [x]
  | y :: ys => if key y ≤ key x then y :: insertByKey key x ys else x :: y :: ys

/-- Stable sort by `key` (embeds the ES2019-stable `Array.prototype.sort`
with a numeric key comparator used by the loader and group views). -/
def sortByKey {α : Type} (key : α → Nat) (l : List α) : List α :=
  l.foldr (insertByKey key) []

/-- Embeds the per-group tile indexing of `loadAllData` in
`moclo-viewer-v3/src/loader.ts`: the tiles of group `g` in bundle order,
sorted by `position`. -/
def groupTilesSorted (tiles : List VTile) (g : Nat) : List VTile :=
  sortByKey VTile.position (tiles.filter (fun t => t.lvl1_group == g))

/-- Embeds `groupMutations` of `moclo-viewer-v3/src/components/GroupDetail.tsx`:
the mutations with position in `[gstart, gend)`, sorted by position. -/
def groupMutationsIn (muts : List Mutation) (gstart gend : Nat) : List Mutation :=
  sortByKey Mutation.position
    (muts.filter (fun m => decide (gstart ≤ m.position) && decide (m.position < gend)))

/-- One run's inputs: genome sequence, scan offset, raw mutation entries,
bundle tiles and the group being viewed. -/
structure PipelineInput where
  genomeSeq : List Char
  offset : Nat
  rawMutations : List (Nat × RawMut)
  tiles : List VTile
  groupId : Nat
  groupStart : Nat
  groupEnd : Nat
deriving DecidableEq

/-- The embedded derived computations of one run: site scan, mutation-map
construction, per-group tile indexing/sorting and per-group mutation
statistics. -/
def pipelineOutputs (inp : PipelineInput) :
    List Nat × List Mutation × List VTile × List Mutation :=
  (findBsaISites inp.genomeSeq inp.offset,
   buildMutations inp.rawMutations,
   groupTilesSorted inp.tiles inp.groupId,
   groupMutationsIn (buildMutations inp.rawMutations) inp.groupStart inp.groupEnd)

/-! ## Assembled (domesticated) sequence of AlignmentView -/

/-- One step of the mutation-application loop of `assembledSeq` in
`moclo-viewer/src/components/AlignmentView.tsx`: for an entry
`(genomePos, mut.m)`, if `regionStart ≤ genomePos < regionEnd` then the
character at local index `genomePos − regionStart` is replaced by `mut.m`,
otherwise nothing happens. -/
def applyMut (regionStart regionEnd : Nat) (chars : List Char) (pm : Nat × Char) : List Char :=
  if regionStart ≤ pm.1 ∧ pm.1 < regionEnd then chars.set (pm.1 - regionStart) pm.2 else chars

/-- Embeds the `assembledSeq` construction of
`moclo-viewer/src/components/AlignmentView.tsx`: starting from the wild-type
region characters, apply every mutation entry in order. -/
def applyMutations (regionStart regionEnd : Nat) (muts : List (Nat × Char))
    (wt : List Char) : List Char :=
  muts.foldl (applyMut regionStart regionEnd) wt

/-! ## Tile boundaries, containment lookup, and the Genome Tiler -/

/-- A tile interval as used by the viewers' lookup code (the
`tileBoundaries` entries of `moclo-viewer/src/components/AlignmentView.tsx`
and the `tileRanges` entries of
`moclo-viewer-v3/src/components/GenomeOverview.tsx`, restricted to the two
coordinate fields the lookups read). -/
structure TileB where
  localStart : Nat
  localEnd : Nat
deriving DecidableEq

/-- Array indexing `tbs[i]` of the lookup code; out-of-range indices (never
reached by the verified callers) give the degenerate tile `[0, 0)`. -/
def tbGet (tbs : List TileB) (i : Nat) : TileB :=
  tbs.getD i { localStart := 0, localEnd := 0 }

/-- Embeds the loop of `getTileIndex` from
`moclo-viewer/src/components/AlignmentView.tsx`: binary search over the tile
boundaries with inclusive bounds `lo`/`hi`, midpoint `(lo + hi) >> 1`,
returning the containing tile's index, or −1 when the range is exhausted.
The source reads `tileBoundaries[mid]` directly; under the invariant
`0 ≤ lo ≤ mid ≤ hi < length` maintained by every call the index is always in
range, so the totalised `tbGet` default is never hit. -/
def getTileIndexGo (tbs : List TileB) (p : Nat) (lo hi : Int) : Int :=
  if _h : lo ≤ hi then
    if p < (tbGet tbs ((lo + hi) / 2).toNat).localStart then
      getTileIndexGo tbs p lo ((lo + hi) / 2 - 1)
    else if (tbGet tbs ((lo + hi) / 2).toNat).localEnd ≤ p then
      getTileIndexGo tbs p ((lo + hi) / 2 + 1) hi
    else (lo + hi) / 2
  else -1
termination_by (hi + 1 - lo).toNat
decreasing_by
  · omega
  · omega

/-- Embeds `getTileIndex(localPos)` from
`moclo-viewer/src/components/AlignmentView.tsx`: search the whole boundary
list (`lo = 0`, `hi = length − 1`). -/
def getTileIndex (tbs : List TileB) (p : Nat) : Int :=
  getTileIndexGo tbs p 0 ((tbs.length : Int) - 1)

/-- Embeds the containment lookup of `handleClick` in
`moclo-viewer-v3/src/components/GenomeOverview.tsx`:
`tileRanges.find(t => pos >= t.start && pos < t.end)`. -/
def findTileAt (tbs : List TileB) (q : Nat) : Option TileB :=
  tbs.find? (fun tb => decide (tb.localStart ≤ q) && decide (q < tb.localEnd))

/-- The boundary the Tiler commits to at cursor `cursor`: the chosen
candidate, clamped so the cursor strictly advances and never passes the
genome end. -/
def nextBoundary (chooseB : Nat → Nat) (L cursor : Nat) : Nat :=
  min (max (chooseB cursor) (cursor + 1)) L

/-- Modelled from the spec: the Genome Tiler walk (§4.3; `primer_design.py`
is not under `src/`): starting at `cursor`, emit the tile
`[cursor, nextBoundary)` and continue from that boundary until the cursor
reaches the genome length `L`; `chooseB` abstracts the scored boundary
search inside the window. -/
def tileGenomeFrom (chooseB : Nat → Nat) (L cursor : Nat) : List TileB :=
  if _h : cursor < L then
    { localStart := cursor, localEnd := nextBoundary chooseB L cursor }
      :: tileGenomeFrom chooseB L (nextBoundary chooseB L cursor)
  else []
termination_by L - cursor
decreasing_by
  simp only [nextBoundary]
  omega

/-- The full tile list of a genome of length `L`: the Tiler walk from 0. -/
def tileGenome (chooseB : Nat → Nat) (L : Nat) : List TileB := tileGenomeFrom chooseB L 0

/-! ## Theorems -/

/-- C2: the restriction-site scanner is a pure function of (sequence, offset):
it returns exactly the positions `k + i` at which the 6-character window of
the (uppercased) sequence starting at `i` reads `GGTCTC` or its reverse
complement `GAGACC`, in strictly increasing order, and the empty sequence
yields the empty list rather than an error. -/
theorem findBsaISites_spec (seq : List Char) (k : Nat) :
    (∀ p, p ∈ findBsaISites seq k ↔
      ∃ i, i + 6 ≤ seq.length ∧ p = k + i ∧
        (substrN (toUpperSeq seq) i 6 = bsaiFwd ∨ substrN (toUpperSeq seq) i 6 = bsaiRev))
    ∧ List.Pairwise (· < ·) (findBsaISites seq k)
    ∧ findBsaISites [] k = []
    ∧ revComp bsaiFwd = bsaiRev := by
  refine ⟨?_, ?_, rfl, by decide⟩
  · intro p
    simp only [findBsaISites, List.mem_filterMap, List.mem_range,
      ite_some_none_eq_some]
    constructor
    · rintro ⟨i, hi, hc, hp⟩
      exact ⟨i, by omega, hp.symm, hc⟩
    · rintro ⟨i, hi, hp, hc⟩
      exact ⟨i, by omega, hc, hp.symm⟩
  · refine List.Pairwise.filterMap _ ?_ (List.pairwise_lt_range _)
    intro a b hab x hx y hy
    rw [Option.mem_def, ite_some_none_eq_some] at hx hy
    omega

/-- C6: the 16-entry standardized overhang catalog is valid: every pair of
distinct entries is at Hamming distance at least 2, no entry is its own
reverse complement (no palindrome), no entry is the reverse complement of
another entry, and no entry contains a homopolymer run of length 3 or more. -/
theorem standardOverhangs_valid :
    (∀ a ∈ standardOverhangs, ∀ b ∈ standardOverhangs, a ≠ b → 2 ≤ hammingDistance a b)
    ∧ (∀ a ∈ standardOverhangs, revComp a ≠ a)
    ∧ (∀ a ∈ standardOverhangs, ∀ b ∈ standardOverhangs, a ≠ b → revComp b ≠ a)
    ∧ (∀ a ∈ standardOverhangs, hasRun3 a = false) := by
  decide

/-- Closed instance of `standardOverhangs_valid`: the first two catalog
entries `AATA` and `AACT` are distinct and at Hamming distance ≥ 2. -/
theorem standardOverhangs_valid_witness :
    (['A', 'A', 'T', 'A'] : List Char) ≠ ['A', 'A', 'C', 'T']
    ∧ 2 ≤ hammingDistance ['A', 'A', 'T', 'A'] ['A', 'A', 'C', 'T'] :=
  ⟨by decide,
    standardOverhangs_valid.1 ['A', 'A', 'T', 'A'] (by decide)
      ['A', 'A', 'C', 'T'] (by decide) (by decide)⟩

/-- C3: for a blocked tile whose domestication record reports `N` internal
sites, the Domestication Planner emits exactly `N + 1` SubFragments, exactly
`N` Mutations and `N` mutagenic primer pairs (`2 N` mutagenic oligos), and
the tile requires exactly `N + 1` sub-fragment PCR reactions plus one final
overlap-assembly reaction. -/
theorem planDomestication_counts (tileStart tileEnd : Nat) (sites : List Nat)
    (mutFor : Nat → Mutation) :
    ((planDomestication tileStart tileEnd sites mutFor).info.n_sites = sites.length)
    ∧ ((planDomestication tileStart tileEnd sites mutFor).info.subfragments.length
        = sites.length + 1)
    ∧ ((planDomestication tileStart tileEnd sites mutFor).mutations.length = sites.length)
    ∧ ((planDomestication tileStart tileEnd sites mutFor).info.primers.length = sites.length)
    ∧ (mutagenicOligos (planDomestication tileStart tileEnd sites mutFor).info
        = 2 * sites.length)
    ∧ (pcrReactionsForBlockedTile (planDomestication tileStart tileEnd sites mutFor).info
        = (sites.length + 1) + 1) := by
  refine ⟨rfl, ?_, by simp [planDomestication], by simp [planDomestication],
    ?_, ?_⟩
  · simp only [planDomestication, List.length_map, List.enum_length,
      List.length_zip, List.length_cons, List.length_append,
      List.length_tail]
    simp
  · simp [planDomestication, mutagenicOligos]
    omega
  · simp only [planDomestication, pcrReactionsForBlockedTile, List.length_map,
      List.enum_length, List.length_zip, List.length_cons, List.length_append,
      List.length_tail]
    simp

/-- C4: the simulator classification is `ready` exactly when no internal
recognition site remains: `gg_ready` holds iff `internal_bsai = 0`, a blocked
tile carries the positive count of its internal sites, and the viewers render
a tile green iff it is ready (and label a ready tile `Ready`). -/
theorem classifyTile_ready_iff (sites : List Nat) :
    ((classifyTile sites).gg_ready = true ↔ (classifyTile sites).internal_bsai = 0)
    ∧ ((classifyTile sites).gg_ready = false → 0 < (classifyTile sites).internal_bsai)
    ∧ (tileColor (classifyTile sites) = GREEN ↔ (classifyTile sites).gg_ready = true)
    ∧ ((classifyTile sites).gg_ready = true → statusLabel (classifyTile sites) = "Ready") := by
  cases sites with
  | nil =>
    exact ⟨by simp [classifyTile], by simp [classifyTile],
      by simp [classifyTile, tileColor], by simp [classifyTile, statusLabel]⟩
  | cons a l =>
    refine ⟨by simp [classifyTile], by simp [classifyTile], ?_, by simp [classifyTile]⟩
    simp only [classifyTile, tileColor, List.isEmpty_cons, Bool.false_eq_true,
      if_false, List.length_cons]
    constructor
    · intro h
      split_ifs at h <;> revert h <;> decide
    · intro h
      exact absurd h (by decide)

/-- Closed instance of `classifyTile_ready_iff` at one internal site: the
tile is classified blocked and its site count is positive. -/
theorem classifyTile_ready_iff_witness :
    (classifyTile [3500]).gg_ready = false ∧ 0 < (classifyTile [3500]).internal_bsai :=
  ⟨by decide, (classifyTile_ready_iff [3500]).2.1 (by decide)⟩

/-- C5: a tile primer is the concatenation enzyme site (6 nt) + spacer
(1 nt) + 4-nt junction overhang + binding region: it begins with the
7-character adapter, its characters at indices `[7, 11)` are the junction
overhang, the rest is the binding region, and the three spans `PrimerBlock`
displays concatenate back to the full primer. -/
theorem tilePrimer_segments (overhang binding : List Char) (hov : overhang.length = 4) :
    (mkTilePrimer overhang binding).take 7 = bsaiAdapter
    ∧ substrN (mkTilePrimer overhang binding) 7 4 = overhang
    ∧ (mkTilePrimer overhang binding).drop 11 = binding
    ∧ hasBsaI (mkTilePrimer overhang binding) = true
    ∧ (primerSegments (mkTilePrimer overhang binding)).1
        ++ (primerSegments (mkTilePrimer overhang binding)).2.1
        ++ (primerSegments (mkTilePrimer overhang binding)).2.2
      = mkTilePrimer overhang binding := by
  have h2 : substrN (mkTilePrimer overhang binding) 7 4 = (overhang ++ binding).take 4 := rfl
  have h3 : (mkTilePrimer overhang binding).drop 11 = (overhang ++ binding).drop 4 := rfl
  have htake : (overhang ++ binding).take 4 = overhang := by
    rw [← hov, List.take_left]
  have hdrop : (overhang ++ binding).drop 4 = binding := by
    rw [← hov, List.drop_left]
  refine ⟨rfl, by rw [h2, htake], by rw [h3, hdrop], rfl, ?_⟩
  show bsaiAdapter ++ (overhang ++ binding).take 4 ++ (overhang ++ binding).drop 4
      = mkTilePrimer overhang binding
  rw [List.append_assoc, List.take_append_drop]
  rfl

/-- Closed instance of `tilePrimer_segments` for overhang `AATA` and binding
region `ACGT`. -/
theorem tilePrimer_segments_witness :
    (['A', 'A', 'T', 'A'] : List Char).length = 4
    ∧ ((mkTilePrimer ['A', 'A', 'T', 'A'] ['A', 'C', 'G', 'T']).take 7 = bsaiAdapter
      ∧ substrN (mkTilePrimer ['A', 'A', 'T', 'A'] ['A', 'C', 'G', 'T']) 7 4 = ['A', 'A', 'T', 'A']
      ∧ (mkTilePrimer ['A', 'A', 'T', 'A'] ['A', 'C', 'G', 'T']).drop 11 = ['A', 'C', 'G', 'T']
      ∧ hasBsaI (mkTilePrimer ['A', 'A', 'T', 'A'] ['A', 'C', 'G', 'T']) = true
      ∧ (primerSegments (mkTilePrimer ['A', 'A', 'T', 'A'] ['A', 'C', 'G', 'T'])).1
          ++ (primerSegments (mkTilePrimer ['A', 'A', 'T', 'A'] ['A', 'C', 'G', 'T'])).2.1
          ++ (primerSegments (mkTilePrimer ['A', 'A', 'T', 'A'] ['A', 'C', 'G', 'T'])).2.2
        = mkTilePrimer ['A', 'A', 'T', 'A'] ['A', 'C', 'G', 'T']) :=
  ⟨rfl, tilePrimer_segments ['A', 'A', 'T', 'A'] ['A', 'C', 'G', 'T'] rfl⟩

/-- C7: overhang assignment in the V2 design is positional: a tile at
position `i` of its Lvl1 group has left overhang `standard_overhangs[i]` and
right overhang `standard_overhangs[i + 1]`; tiles at the same position in
different Lvl1 groups therefore carry identical flanking overhangs, the
Slide5 assembly diagram shows exactly these catalog values, and the right
overhang at position `p` is the left overhang at position `p + 1`. -/
theorem v2Overhangs_positional :
    (∀ idx, (v2TileOverhangs idx).1 = standardOverhangs.getD (tilePositionOf idx) []
      ∧ (v2TileOverhangs idx).2 = standardOverhangs.getD (tilePositionOf idx + 1) [])
    ∧ (∀ i j, tilePositionOf i = tilePositionOf j → v2TileOverhangs i = v2TileOverhangs j)
    ∧ (∀ i, i < tilesPerGroupV2 →
        slide5AssemblySlots.getD i ([], []) =
          (v2OverhangLeft standardOverhangs i, v2OverhangRight standardOverhangs i))
    ∧ (∀ p, v2OverhangRight standardOverhangs p = v2OverhangLeft standardOverhangs (p + 1)) := by
  refine ⟨fun idx => ⟨rfl, rfl⟩, ?_, by decide, fun p => rfl⟩
  intro i j h
  unfold v2TileOverhangs
  rw [h]

/-- Closed instance of `v2Overhangs_positional`: tiles 3 and 18 sit at the
same position (3) of their respective Lvl1 groups and carry identical
flanking overhangs. -/
theorem v2Overhangs_positional_witness :
    tilePositionOf 3 = tilePositionOf 18 ∧ v2TileOverhangs 3 = v2TileOverhangs 18 :=
  ⟨by decide, v2Overhangs_positional.2.1 3 18 (by decide)⟩

/-- The candidate scan keeps an element of the candidate list. -/
theorem foldl_pickBetter_mem (target : ℚ) (cs : List (Nat × ℚ)) (c : Nat × ℚ) :
    cs.foldl (pickBetter target) c ∈ c :: cs := by
  induction cs generalizing c with
  | nil => simp
  | cons d ds ih =>
    rw [List.foldl_cons]
    rcases List.mem_cons.1 (ih (pickBetter target c d)) with h | h
    · rw [h]
      unfold pickBetter
      split
      · simp
      · simp
    · exact List.mem_cons_of_mem _ (List.mem_cons_of_mem _ h)

/-- The candidate scan minimises the Tm deviation over the candidate list. -/
theorem foldl_pickBetter_min (target : ℚ) (cs : List (Nat × ℚ)) (c : Nat × ℚ) :
    ∀ x ∈ c :: cs, tmDev target (cs.foldl (pickBetter target) c).2 ≤ tmDev target x.2 := by
  induction cs generalizing c with
  | nil =>
    intro x hx
    rw [List.mem_singleton] at hx
    subst hx
    simp
  | cons d ds ih =>
    intro x hx
    rw [List.foldl_cons]
    have hle_c : tmDev target (pickBetter target c d).2 ≤ tmDev target c.2 := by
      unfold pickBetter
      split_ifs with h
      · exact le_of_lt h
      · exact le_refl _
    have hle_d : tmDev target (pickBetter target c d).2 ≤ tmDev target d.2 := by
      unfold pickBetter
      split_ifs with h
      · exact le_refl _
      · exact le_of_not_lt h
    have hhead := ih (pickBetter target c d) (pickBetter target c d)
      (List.mem_cons_self _ _)
    rcases List.mem_cons.1 hx with hx1 | hx1
    · subst hx1
      exact le_trans hhead hle_c
    · rcases List.mem_cons.1 hx1 with hx2 | hx2
      · subst hx2
        exact le_trans hhead hle_d
      · exact ih (pickBetter target c d) x (List.mem_cons_of_mem _ hx2)

/-- C8: for every non-empty candidate set, a primer record is produced; its
achieved Tm either deviates from the target by at most the tolerance or the
record is flagged `TmUnreachable` (with the achieved Tm recorded for manual
review — a flag, never a failure); the chosen binding-region length is one
of the candidates, and it is the one whose Tm deviation is smallest. -/
theorem designPrimerTm_spec (target tol : ℚ) (cands : List (Nat × ℚ)) (hne : cands ≠ []) :
    ∃ r, designPrimerTm target tol cands = some r
      ∧ (|r.achievedTm - target| ≤ tol ∨ r.tmUnreachable = true)
      ∧ (r.tmUnreachable = true ↔ tol < |r.achievedTm - target|)
      ∧ (∃ c ∈ cands, r.bindingLen = c.1 ∧ r.achievedTm = c.2)
      ∧ (∀ c ∈ cands, |r.achievedTm - target| ≤ |c.2 - target|) := by
  cases cands with
  | nil => exact absurd rfl hne
  | cons c cs =>
    refine ⟨_, rfl, ?_, ?_, ?_, ?_⟩
    · rcases le_or_lt (tmDev target (cs.foldl (pickBetter target) c).2) tol with h | h
      · exact Or.inl h
      · exact Or.inr (by simpa [decide_eq_true_iff] using h)
    · show decide (tol < tmDev target (cs.foldl (pickBetter target) c).2) = true ↔ _
      rw [decide_eq_true_iff]
      exact Iff.rfl
    · exact ⟨cs.foldl (pickBetter target) c, foldl_pickBetter_mem target cs c, rfl, rfl⟩
    · intro x hx
      exact foldl_pickBetter_min target cs c x hx

/-- Closed instance of `designPrimerTm_spec` for target 60 °C, tolerance 2 °C
and candidates of Tm 55 °C and 59 °C. -/
theorem designPrimerTm_spec_witness :
    ([(18, (55 : ℚ)), (20, 59)] : List (Nat × ℚ)) ≠ []
    ∧ ∃ r, designPrimerTm 60 2 [(18, (55 : ℚ)), (20, 59)] = some r
        ∧ (|r.achievedTm - 60| ≤ 2 ∨ r.tmUnreachable = true)
        ∧ (r.tmUnreachable = true ↔ 2 < |r.achievedTm - 60|)
        ∧ (∃ c ∈ ([(18, (55 : ℚ)), (20, 59)] : List (Nat × ℚ)),
            r.bindingLen = c.1 ∧ r.achievedTm = c.2)
        ∧ (∀ c ∈ ([(18, (55 : ℚ)), (20, 59)] : List (Nat × ℚ)),
            |r.achievedTm - 60| ≤ |c.2 - 60|) :=
  ⟨by simp, designPrimerTm_spec 60 2 _ (by simp)⟩

/-- C9: the embedded derived computations (site scanning, mutation-map
construction, per-group tile indexing and sorting, per-group mutation
statistics) are deterministic: two runs on identical inputs produce
identical outputs, and re-running on the same input reproduces the same
output (the embedding is a pure function of its input; the only sort
involved is the stable key sort, which has a unique result). -/
theorem pipelineOutputs_deterministic (a b : PipelineInput) (h : a = b) :
    pipelineOutputs a = pipelineOutputs b ∧ pipelineOutputs a = pipelineOutputs a := by
  subst h
  exact ⟨rfl, rfl⟩

/-- Closed instance of `pipelineOutputs_deterministic` on a small concrete
input containing one forward site and one raw mutation. -/
theorem pipelineOutputs_deterministic_witness :
    ({ genomeSeq := ['G', 'G', 'T', 'C', 'T', 'C'], offset := 0,
       rawMutations := [(3, { o := 'C', m := 'T', c := "GAC-GAT", a := "D", g := "dnaJ" })],
       tiles := [], groupId := 0, groupStart := 0, groupEnd := 6 } : PipelineInput)
      = { genomeSeq := ['G', 'G', 'T', 'C', 'T', 'C'], offset := 0,
          rawMutations := [(3, { o := 'C', m := 'T', c := "GAC-GAT", a := "D", g := "dnaJ" })],
          tiles := [], groupId := 0, groupStart := 0, groupEnd := 6 }
    ∧ pipelineOutputs
        { genomeSeq := ['G', 'G', 'T', 'C', 'T', 'C'], offset := 0,
          rawMutations := [(3, { o := 'C', m := 'T', c := "GAC-GAT", a := "D", g := "dnaJ" })],
          tiles := [], groupId := 0, groupStart := 0, groupEnd := 6 }
      = pipelineOutputs
        { genomeSeq := ['G', 'G', 'T', 'C', 'T', 'C'], offset := 0,
          rawMutations := [(3, { o := 'C', m := 'T', c := "GAC-GAT", a := "D", g := "dnaJ" })],
          tiles := [], groupId := 0, groupStart := 0, groupEnd := 6 } :=
  ⟨rfl, (pipelineOutputs_deterministic _ _ rfl).1⟩

/-- Unfolding of one step of the mutation-application loop. -/
theorem applyMutations_cons (regionStart regionEnd : Nat) (pm : Nat × Char)
    (ms : List (Nat × Char)) (wt : List Char) :
    applyMutations regionStart regionEnd (pm :: ms) wt
      = applyMutations regionStart regionEnd ms (applyMut regionStart regionEnd wt pm) := rfl

/-- One application step preserves the sequence length. -/
theorem applyMut_length (regionStart regionEnd : Nat) (chars : List Char) (pm : Nat × Char) :
    (applyMut regionStart regionEnd chars pm).length = chars.length := by
  unfold applyMut
  split
  · exact List.length_set chars _ _
  · rfl

/-- The assembled sequence has the same length as the wild type. -/
theorem applyMutations_length (regionStart regionEnd : Nat) (ms : List (Nat × Char)) :
    ∀ wt, (applyMutations regionStart regionEnd ms wt).length = wt.length := by
  induction ms with
  | nil => intro wt; rfl
  | cons pm ms ih =>
    intro wt
    rw [applyMutations_cons, ih, applyMut_length]

/-- Local indices that no in-range mutation targets are left unchanged. -/
theorem applyMutations_getElem_untouched (regionStart regionEnd : Nat)
    (ms : List (Nat × Char)) (j : Nat) :
    ∀ wt, (∀ p c, (p, c) ∈ ms → regionStart ≤ p → p < regionEnd → p - regionStart ≠ j) →
      (applyMutations regionStart regionEnd ms wt)[j]? = wt[j]? := by
  induction ms with
  | nil => intro wt _; rfl
  | cons pm ms ih =>
    intro wt h
    rw [applyMutations_cons,
      ih _ (fun p c hp => h p c (List.mem_cons_of_mem _ hp))]
    unfold applyMut
    split
    · rename_i hc
      exact List.getElem?_set_ne (h pm.1 pm.2 (by simp) hc.1 hc.2)
    · rfl

/-- In-range mutation positions receive their mutant base (the mutation map
is keyed by position, so positions are distinct). -/
theorem applyMutations_getElem_mut (regionStart regionEnd : Nat)
    (ms : List (Nat × Char)) (p : Nat) (c : Char) :
    ∀ wt, (p, c) ∈ ms → (ms.map Prod.fst).Nodup →
      regionStart ≤ p → p < regionEnd → p - regionStart < wt.length →
      (applyMutations regionStart regionEnd ms wt)[p - regionStart]? = some c := by
  induction ms with
  | nil => intro wt hmem _ _ _ _; simp at hmem
  | cons pm ms ih =>
    intro wt hmem hnd h1 h2 hlt
    rw [applyMutations_cons]
    rcases List.mem_cons.1 hmem with heq | htail
    · obtain rfl : pm = (p, c) := heq.symm
      have hnd' : p ∉ ms.map Prod.fst ∧ (ms.map Prod.fst).Nodup :=
        List.nodup_cons.1 (by simpa using hnd)
      have hset : applyMut regionStart regionEnd wt (p, c) = wt.set (p - regionStart) c := by
        unfold applyMut
        rw [if_pos ⟨h1, h2⟩]
      have huntouched :
          (applyMutations regionStart regionEnd ms
            (wt.set (p - regionStart) c))[p - regionStart]?
          = (wt.set (p - regionStart) c)[p - regionStart]? := by
        apply applyMutations_getElem_untouched
        intro q d hq hq1 _
        have hqp : q ≠ p := by
          intro h
          exact hnd'.1 (h ▸ List.mem_map.2 ⟨(q, d), hq, rfl⟩)
        omega
      rw [hset, huntouched]
      exact List.getElem?_set_self hlt
    · have hnd' : (ms.map Prod.fst).Nodup := (List.nodup_cons.1 (by simpa using hnd)).2
      have hlt' : p - regionStart < (applyMut regionStart regionEnd wt pm).length := by
        rw [applyMut_length]; exact hlt
      exact ih _ htail hnd' h1 h2 hlt'

/-- Mutation entries entirely outside the region leave the sequence
unchanged. -/
theorem applyMutations_outside (regionStart regionEnd : Nat) (ms : List (Nat × Char)) :
    ∀ wt, (∀ p c, (p, c) ∈ ms → p < regionStart ∨ regionEnd ≤ p) →
      applyMutations regionStart regionEnd ms wt = wt := by
  induction ms with
  | nil => intro wt _; rfl
  | cons pm ms ih =>
    intro wt h
    rw [applyMutations_cons]
    have hstep : applyMut regionStart regionEnd wt pm = wt := by
      have := h pm.1 pm.2 (by simp)
      unfold applyMut
      rw [if_neg (by omega)]
    rw [hstep]
    exact ih wt (fun p c hp => h p c (List.mem_cons_of_mem _ hp))

/-- C10: applying the mutation map to a region is a pure frame-preserving
substitution: the assembled sequence has the same length as the wild-type
region; at every mutation position `p` with `regionStart ≤ p < regionEnd`
the assembled sequence holds the mutant base at local index
`p − regionStart`; every untargeted local index is unchanged; and a mutation
list entirely outside the region leaves the sequence unchanged. -/
theorem assembledSeq_spec (regionStart regionEnd : Nat) (muts : List (Nat × Char))
    (wt : List Char) (hlen : wt.length = regionEnd - regionStart)
    (hnd : (muts.map Prod.fst).Nodup) :
    ((applyMutations regionStart regionEnd muts wt).length = wt.length)
    ∧ (∀ p c, (p, c) ∈ muts → regionStart ≤ p → p < regionEnd →
        (applyMutations regionStart regionEnd muts wt)[p - regionStart]? = some c)
    ∧ (∀ j, (∀ p c, (p, c) ∈ muts → regionStart ≤ p → p < regionEnd →
          p - regionStart ≠ j) →
        (applyMutations regionStart regionEnd muts wt)[j]? = wt[j]?)
    ∧ ((∀ p c, (p, c) ∈ muts → p < regionStart ∨ regionEnd ≤ p) →
        applyMutations regionStart regionEnd muts wt = wt) := by
  refine ⟨applyMutations_length _ _ _ _, ?_, fun j h =>
    applyMutations_getElem_untouched _ _ _ _ _ h, applyMutations_outside _ _ _ _⟩
  intro p c hmem h1 h2
  exact applyMutations_getElem_mut _ _ _ _ _ _ hmem hnd h1 h2 (by omega)

/-- Closed instance of `assembledSeq_spec` for the region `[10, 14)`, the
wild-type characters `ACGT`, an in-region mutation at genome position 11 and
an out-of-region mutation at genome position 20. -/
theorem assembledSeq_spec_witness :
    (['A', 'C', 'G', 'T'] : List Char).length = 14 - 10
    ∧ (([(11, 'T'), (20, 'G')] : List (Nat × Char)).map Prod.fst).Nodup
    ∧ (((applyMutations 10 14 [(11, 'T'), (20, 'G')] ['A', 'C', 'G', 'T']).length
          = (['A', 'C', 'G', 'T'] : List Char).length)
      ∧ (∀ p c, (p, c) ∈ ([(11, 'T'), (20, 'G')] : List (Nat × Char)) → 10 ≤ p → p < 14 →
          (applyMutations 10 14 [(11, 'T'), (20, 'G')] ['A', 'C', 'G', 'T'])[p - 10]? = some c)
      ∧ (∀ j, (∀ p c, (p, c) ∈ ([(11, 'T'), (20, 'G')] : List (Nat × Char)) →
            10 ≤ p → p < 14 → p - 10 ≠ j) →
          (applyMutations 10 14 [(11, 'T'), (20, 'G')] ['A', 'C', 'G', 'T'])[j]?
            = (['A', 'C', 'G', 'T'] : List Char)[j]?)
      ∧ ((∀ p c, (p, c) ∈ ([(11, 'T'), (20, 'G')] : List (Nat × Char)) → p < 10 ∨ 14 ≤ p) →
          applyMutations 10 14 [(11, 'T'), (20, 'G')] ['A', 'C', 'G', 'T']
            = ['A', 'C', 'G', 'T'])) :=
  ⟨rfl, by decide, assembledSeq_spec 10 14 [(11, 'T'), (20, 'G')] ['A', 'C', 'G', 'T'] rfl (by decide)⟩

/-- Indexing a list within bounds agrees with `getElem`. -/
theorem tbGet_eq_getElem (tbs : List TileB) (i : Nat) (h : i < tbs.length) :
    tbGet tbs i = tbs[i] := by
  simp [tbGet, List.getD_eq_getElem?_getD, List.getElem?_eq_getElem h]

/-- An in-bounds indexed tile is a member of the list. -/
theorem tbGet_mem (tbs : List TileB) (i : Nat) (h : i < tbs.length) :
    tbGet tbs i ∈ tbs := by
  rw [tbGet_eq_getElem tbs i h]
  exact List.getElem_mem h

/-- Indexing at the head. -/
theorem tbGet_cons_zero (x : TileB) (l : List TileB) : tbGet (x :: l) 0 = x :=
  List.getD_cons_zero

/-- Indexing into the tail. -/
theorem tbGet_cons_succ (x : TileB) (l : List TileB) (n : Nat) :
    tbGet (x :: l) (n + 1) = tbGet l n :=
  List.getD_cons_succ

/-- Unfolding of the Tiler walk below the genome end. -/
theorem tileGenomeFrom_pos (ch : Nat → Nat) (L c : Nat) (h : c < L) :
    tileGenomeFrom ch L c
      = { localStart := c, localEnd := nextBoundary ch L c }
        :: tileGenomeFrom ch L (nextBoundary ch L c) := by
  rw [tileGenomeFrom, dif_pos h]

/-- The Tiler walk stops at the genome end. -/
theorem tileGenomeFrom_neg (ch : Nat → Nat) (L c : Nat) (h : ¬ c < L) :
    tileGenomeFrom ch L c = [] := by
  rw [tileGenomeFrom, dif_neg h]

/-- The committed boundary strictly advances the cursor and never passes the
genome end. -/
theorem nextBoundary_bounds (ch : Nat → Nat) (L c : Nat) (h : c < L) :
    c < nextBoundary ch L c ∧ nextBoundary ch L c ≤ L := by
  unfold nextBoundary
  omega

/-- Every emitted tile is nonempty, starts at or after the cursor and ends at
or before the genome end. -/
theorem tileGenomeFrom_mem_bounds (ch : Nat → Nat) (L : Nat) :
    ∀ n c, L - c ≤ n → ∀ tb ∈ tileGenomeFrom ch L c,
      c ≤ tb.localStart ∧ tb.localStart < tb.localEnd ∧ tb.localEnd ≤ L := by
  intro n
  induction n with
  | zero =>
    intro c hm tb htb
    rw [tileGenomeFrom_neg ch L c (by omega)] at htb
    simp at htb
  | succ n ih =>
    intro c hm tb htb
    by_cases hc : c < L
    · have hb := nextBoundary_bounds ch L c hc
      rw [tileGenomeFrom_pos ch L c hc] at htb
      rcases List.mem_cons.1 htb with rfl | htail
      · exact ⟨le_refl _, hb.1, hb.2⟩
      · have := ih (nextBoundary ch L c) (by omega) tb htail
        exact ⟨by omega, this.2.1, this.2.2⟩
    · rw [tileGenomeFrom_neg ch L c hc] at htb
      simp at htb

/-- Below the genome end, the first emitted tile starts at the cursor. -/
theorem tileGenomeFrom_head_start (ch : Nat → Nat) (L c : Nat) (h : c < L) :
    (tbGet (tileGenomeFrom ch L c) 0).localStart = c := by
  rw [tileGenomeFrom_pos ch L c h, tbGet_cons_zero]

/-- Adjacent emitted tiles share a boundary: each tile's end is the next
tile's start. -/
theorem tileGenomeFrom_adj (ch : Nat → Nat) (L : Nat) :
    ∀ n c, L - c ≤ n → ∀ i, i + 1 < (tileGenomeFrom ch L c).length →
      (tbGet (tileGenomeFrom ch L c) i).localEnd
        = (tbGet (tileGenomeFrom ch L c) (i + 1)).localStart := by
  intro n
  induction n with
  | zero =>
    intro c hm i hi
    rw [tileGenomeFrom_neg ch L c (by omega)] at hi
    simp at hi
  | succ n ih =>
    intro c hm i hi
    by_cases hc : c < L
    · have hb := nextBoundary_bounds ch L c hc
      rw [tileGenomeFrom_pos ch L c hc] at hi ⊢
      cases i with
      | zero =>
        rw [List.length_cons] at hi
        have hne : nextBoundary ch L c < L := by
          by_contra hge
          rw [tileGenomeFrom_neg ch L _ hge] at hi
          simp at hi
        rw [tbGet_cons_zero, tbGet_cons_succ]
        exact (tileGenomeFrom_head_start ch L (nextBoundary ch L c) hne).symm
      | succ i =>
        rw [tbGet_cons_succ, tbGet_cons_succ]
        apply ih (nextBoundary ch L c) (by omega) i
        rw [List.length_cons] at hi
        omega
    · rw [tileGenomeFrom_neg ch L c hc] at hi
      simp at hi

/-- Every position from the cursor up to the genome end is covered by some
emitted tile. -/
theorem tileGenomeFrom_cover (ch : Nat → Nat) (L : Nat) :
    ∀ n c, L - c ≤ n → ∀ q, c ≤ q → q < L →
      ∃ i, i < (tileGenomeFrom ch L c).length
        ∧ (tbGet (tileGenomeFrom ch L c) i).localStart ≤ q
        ∧ q < (tbGet (tileGenomeFrom ch L c) i).localEnd := by
  intro n
  induction n with
  | zero =>
    intro c hm q hq1 hq2
    omega
  | succ n ih =>
    intro c hm q hq1 hq2
    have hc : c < L := by omega
    have hb := nextBoundary_bounds ch L c hc
    rw [tileGenomeFrom_pos ch L c hc]
    by_cases hlt : q < nextBoundary ch L c
    · refine ⟨0, by simp, ?_, ?_⟩ <;> rw [tbGet_cons_zero]
      · exact hq1
      · exact hlt
    · obtain ⟨i, hi, h1, h2⟩ := ih (nextBoundary ch L c) (by omega) q (by omega) hq2
      refine ⟨i + 1, ?_, ?_, ?_⟩
      · rw [List.length_cons]; omega
      · rwa [tbGet_cons_succ]
      · rwa [tbGet_cons_succ]

/-- The last emitted tile ends at the genome end. -/
theorem tileGenomeFrom_last (ch : Nat → Nat) (L : Nat) :
    ∀ n c, L - c ≤ n → c < L → ∀ tb, (tileGenomeFrom ch L c).getLast? = some tb →
      tb.localEnd = L := by
  intro n
  induction n with
  | zero =>
    intro c hm hc
    omega
  | succ n ih =>
    intro c hm hc tb htb
    have hb := nextBoundary_bounds ch L c hc
    rw [tileGenomeFrom_pos ch L c hc] at htb
    by_cases hn2 : nextBoundary ch L c < L
    · rw [tileGenomeFrom_pos ch L _ hn2, List.getLast?_cons_cons] at htb
      apply ih (nextBoundary ch L c) (by omega) hn2 tb
      rw [tileGenomeFrom_pos ch L _ hn2]
      exact htb
    · have hEq : nextBoundary ch L c = L := by omega
      rw [tileGenomeFrom_neg ch L _ (by omega)] at htb
      simp only [List.getLast?_singleton, Option.some.injEq] at htb
      rw [← htb]
      exact hEq

/-- With nonempty tiles sharing boundaries, an earlier tile ends at or before
a later tile starts. -/
theorem tb_end_le_start (tbs : List TileB)
    (hpos : ∀ i, i < tbs.length → (tbGet tbs i).localStart < (tbGet tbs i).localEnd)
    (hadj : ∀ i, i + 1 < tbs.length →
      (tbGet tbs i).localEnd = (tbGet tbs (i + 1)).localStart)
    (i : Nat) :
    ∀ j, i < j → j < tbs.length → (tbGet tbs i).localEnd ≤ (tbGet tbs j).localStart := by
  intro j hij
  induction j, hij using Nat.le_induction with
  | base =>
    intro hj
    exact le_of_eq (hadj i hj)
  | succ m _hm ihm =>
    intro hj
    have h1 := ihm (by omega)
    have h2 := hpos m (by omega)
    have h3 := hadj m hj
    omega

/-- With nonempty tiles sharing boundaries, at most one tile contains any
position. -/
theorem tb_containment_unique (tbs : List TileB)
    (hpos : ∀ i, i < tbs.length → (tbGet tbs i).localStart < (tbGet tbs i).localEnd)
    (hadj : ∀ i, i + 1 < tbs.length →
      (tbGet tbs i).localEnd = (tbGet tbs (i + 1)).localStart)
    (q i j : Nat) (hi : i < tbs.length) (hj : j < tbs.length)
    (hi1 : (tbGet tbs i).localStart ≤ q) (hi2 : q < (tbGet tbs i).localEnd)
    (hj1 : (tbGet tbs j).localStart ≤ q) (hj2 : q < (tbGet tbs j).localEnd) : i = j := by
  rcases Nat.lt_trichotomy i j with h | h | h
  · have := tb_end_le_start tbs hpos hadj i j h hj
    omega
  · exact h
  · have := tb_end_le_start tbs hpos hadj j i h hi
    omega

/-- The binary search of `getTileIndex` finds the containing tile: whenever a
containing index `j` lies in the inclusive search range `[lo, hi]`, the
search returns `j`. -/
theorem getTileIndexGo_correct (tbs : List TileB) (q : Nat)
    (hpos : ∀ i, i < tbs.length → (tbGet tbs i).localStart < (tbGet tbs i).localEnd)
    (hadj : ∀ i, i + 1 < tbs.length →
      (tbGet tbs i).localEnd = (tbGet tbs (i + 1)).localStart) :
    ∀ n (lo hi : Int), (hi + 1 - lo).toNat ≤ n →
      0 ≤ lo → hi < (tbs.length : Int) →
      ∀ j : Nat, j < tbs.length → lo ≤ (j : Int) → (j : Int) ≤ hi →
      (tbGet tbs j).localStart ≤ q → q < (tbGet tbs j).localEnd →
      getTileIndexGo tbs q lo hi = (j : Int) := by
  intro n
  induction n with
  | zero =>
    intro lo hi hm _ _ j _ hj1 hj2 _ _
    omega
  | succ n ih =>
    intro lo hi hm hlo hhi j hjlen hj1 hj2 hq1 hq2
    have hlohi : lo ≤ hi := le_trans hj1 hj2
    have hmid1 : lo ≤ (lo + hi) / 2 := by omega
    have hmid2 : (lo + hi) / 2 ≤ hi := by omega
    have hmidlen : ((lo + hi) / 2).toNat < tbs.length := by omega
    rw [getTileIndexGo, dif_pos hlohi]
    by_cases hlt : q < (tbGet tbs ((lo + hi) / 2).toNat).localStart
    · rw [if_pos hlt]
      have hjm : (j : Int) < (lo + hi) / 2 := by
        rcases Nat.lt_trichotomy j ((lo + hi) / 2).toNat with h | h | h
        · omega
        · exfalso
          rw [← h] at hlt
          omega
        · exfalso
          have h1 := tb_end_le_start tbs hpos hadj ((lo + hi) / 2).toNat j h hjlen
          have h2 := hpos ((lo + hi) / 2).toNat hmidlen
          omega
      exact ih lo ((lo + hi) / 2 - 1) (by omega) hlo (by omega) j hjlen hj1 (by omega) hq1 hq2
    · rw [if_neg hlt]
      by_cases hge : (tbGet tbs ((lo + hi) / 2).toNat).localEnd ≤ q
      · rw [if_pos hge]
        have hjm : (lo + hi) / 2 < (j : Int) := by
          rcases Nat.lt_trichotomy j ((lo + hi) / 2).toNat with h | h | h
          · exfalso
            have h1 := tb_end_le_start tbs hpos hadj j ((lo + hi) / 2).toNat h hmidlen
            have h2 := hpos ((lo + hi) / 2).toNat hmidlen
            omega
          · exfalso
            rw [← h] at hge
            omega
          · omega
        exact ih ((lo + hi) / 2 + 1) hi (by omega) (by omega) hhi j hjlen (by omega) hj2 hq1 hq2
      · rw [if_neg hge]
        have heq : ((lo + hi) / 2).toNat = j :=
          tb_containment_unique tbs hpos hadj q ((lo + hi) / 2).toNat j hmidlen hjlen
            (Nat.le_of_not_lt hlt) (Nat.lt_of_not_le hge) hq1 hq2
        omega

/-- The viewer's binary search returns the index of the containing tile. -/
theorem getTileIndex_correct (tbs : List TileB) (q : Nat)
    (hpos : ∀ i, i < tbs.length → (tbGet tbs i).localStart < (tbGet tbs i).localEnd)
    (hadj : ∀ i, i + 1 < tbs.length →
      (tbGet tbs i).localEnd = (tbGet tbs (i + 1)).localStart)
    (j : Nat) (hj : j < tbs.length)
    (h1 : (tbGet tbs j).localStart ≤ q) (h2 : q < (tbGet tbs j).localEnd) :
    getTileIndex tbs q = (j : Int) := by
  unfold getTileIndex
  exact getTileIndexGo_correct tbs q hpos hadj
    ((tbs.length : Int) - 1 + 1 - 0).toNat 0 ((tbs.length : Int) - 1)
    (by omega) (by omega) (by omega) j hj (by omega) (by omega) h1 h2

/-- The viewer's linear `find` lookup returns the containing tile. -/
theorem findTileAt_correct (tbs : List TileB) (q : Nat)
    (hpos : ∀ i, i < tbs.length → (tbGet tbs i).localStart < (tbGet tbs i).localEnd)
    (hadj : ∀ i, i + 1 < tbs.length →
      (tbGet tbs i).localEnd = (tbGet tbs (i + 1)).localStart)
    (j : Nat) (hj : j < tbs.length)
    (h1 : (tbGet tbs j).localStart ≤ q) (h2 : q < (tbGet tbs j).localEnd) :
    findTileAt tbs q = some (tbGet tbs j) := by
  unfold findTileAt
  rcases ho : tbs.find? (fun tb => decide (tb.localStart ≤ q) && decide (q < tb.localEnd))
    with _ | tb
  · exfalso
    rw [List.find?_eq_none] at ho
    exact ho (tbGet tbs j) (tbGet_mem tbs j hj) (by simp [h1, h2])
  · have hmem := List.mem_of_find?_eq_some ho
    have hsat := List.find?_some ho
    rw [Bool.and_eq_true, decide_eq_true_iff, decide_eq_true_iff] at hsat
    obtain ⟨i, hilen, hieq⟩ := List.mem_iff_getElem.1 hmem
    have hi_tb : tbGet tbs i = tb := by rw [tbGet_eq_getElem tbs i hilen, hieq]
    have hij : i = j := tb_containment_unique tbs hpos hadj q i j hilen hj
      (by rw [hi_tb]; exact hsat.1) (by rw [hi_tb]; exact hsat.2) h1 h2
    rw [← hij, hi_tb]
    exact ho

/-- C1: for every genome length `L > 0` and boundary choice, the Tiler's
tiles exactly partition the genome: the first tile starts at 0, the last
tile ends at `L`, each tile's end is the next tile's start, the union of the
half-open tile intervals is exactly `[0, L)`, no position lies in two tiles,
and the containment lookups used by the viewers (the binary search
`getTileIndex` and the linear `find`) return exactly the unique containing
tile. -/
theorem tiling_partition_unique (ch : Nat → Nat) (L : Nat) (hL : 0 < L) :
    ((tbGet (tileGenome ch L) 0).localStart = 0)
    ∧ (∀ tb, (tileGenome ch L).getLast? = some tb → tb.localEnd = L)
    ∧ (∀ i, i + 1 < (tileGenome ch L).length →
        (tbGet (tileGenome ch L) i).localEnd = (tbGet (tileGenome ch L) (i + 1)).localStart)
    ∧ (∀ q, q < L ↔ ∃ i, i < (tileGenome ch L).length
        ∧ (tbGet (tileGenome ch L) i).localStart ≤ q
        ∧ q < (tbGet (tileGenome ch L) i).localEnd)
    ∧ (∀ q i j, i < (tileGenome ch L).length → j < (tileGenome ch L).length →
        (tbGet (tileGenome ch L) i).localStart ≤ q →
        q < (tbGet (tileGenome ch L) i).localEnd →
        (tbGet (tileGenome ch L) j).localStart ≤ q →
        q < (tbGet (tileGenome ch L) j).localEnd → i = j)
    ∧ (∀ q i, i < (tileGenome ch L).length →
        (tbGet (tileGenome ch L) i).localStart ≤ q →
        q < (tbGet (tileGenome ch L) i).localEnd →
        getTileIndex (tileGenome ch L) q = (i : Int)
          ∧ findTileAt (tileGenome ch L) q = some (tbGet (tileGenome ch L) i)) := by
  have hpos : ∀ i, i < (tileGenome ch L).length →
      (tbGet (tileGenome ch L) i).localStart < (tbGet (tileGenome ch L) i).localEnd := by
    intro i hi
    exact (tileGenomeFrom_mem_bounds ch L L 0 (by omega) _ (tbGet_mem _ i hi)).2.1
  have hadj : ∀ i, i + 1 < (tileGenome ch L).length →
      (tbGet (tileGenome ch L) i).localEnd = (tbGet (tileGenome ch L) (i + 1)).localStart :=
    fun i hi => tileGenomeFrom_adj ch L L 0 (by omega) i hi
  refine ⟨tileGenomeFrom_head_start ch L 0 hL,
    fun tb htb => tileGenomeFrom_last ch L L 0 (by omega) hL tb htb,
    hadj, ?_,
    fun q i j => tb_containment_unique (tileGenome ch L) hpos hadj q i j,
    fun q i hi h1 h2 => ⟨getTileIndex_correct _ q hpos hadj i hi h1 h2,
      findTileAt_correct _ q hpos hadj i hi h1 h2⟩⟩
  intro q
  constructor
  · intro hq
    exact tileGenomeFrom_cover ch L L 0 (by omega) q (Nat.zero_le q) hq
  · rintro ⟨i, hi, _h1, h2⟩
    have hb := (tileGenomeFrom_mem_bounds ch L L 0 (by omega)
      (tbGet (tileGenome ch L) i) (tbGet_mem _ i hi)).2.2
    omega

/-- Closed instance of `tiling_partition_unique` for a genome of length 10
tiled with the boundary choice `cursor + 4` (tiles `[0,4) [4,8) [8,10)`). -/
theorem tiling_partition_unique_witness :
    0 < 10
    ∧ (((tbGet (tileGenome (fun c => c + 4) 10) 0).localStart = 0)
      ∧ (∀ tb, (tileGenome (fun c => c + 4) 10).getLast? = some tb → tb.localEnd = 10)
      ∧ (∀ i, i + 1 < (tileGenome (fun c => c + 4) 10).length →
          (tbGet (tileGenome (fun c => c + 4) 10) i).localEnd
            = (tbGet (tileGenome (fun c => c + 4) 10) (i + 1)).localStart)
      ∧ (∀ q, q < 10 ↔ ∃ i, i < (tileGenome (fun c => c + 4) 10).length
          ∧ (tbGet (tileGenome (fun c => c + 4) 10) i).localStart ≤ q
          ∧ q < (tbGet (tileGenome (fun c => c + 4) 10) i).localEnd)
      ∧ (∀ q i j, i < (tileGenome (fun c => c + 4) 10).length →
          j < (tileGenome (fun c => c + 4) 10).length →
          (tbGet (tileGenome (fun c => c + 4) 10) i).localStart ≤ q →
          q < (tbGet (tileGenome (fun c => c + 4) 10) i).localEnd →
          (tbGet (tileGenome (fun c => c + 4) 10) j).localStart ≤ q →
          q < (tbGet (tileGenome (fun c => c + 4) 10) j).localEnd → i = j)
      ∧ (∀ q i, i < (tileGenome (fun c => c + 4) 10).length →
          (tbGet (tileGenome (fun c => c + 4) 10) i).localStart ≤ q →
          q < (tbGet (tileGenome (fun c => c + 4) 10) i).localEnd →
          getTileIndex (tileGenome (fun c => c + 4) 10) q = (i : Int)
            ∧ findTileAt (tileGenome (fun c => c + 4) 10) q
              = some (tbGet (tileGenome (fun c => c + 4) 10) i))) :=
  ⟨by decide, tiling_partition_unique (fun c => c + 4) 10 (by decide)⟩
